import Mathlib

/-
Verification of the StringFinder multi-pattern dictionary matcher
(in3120/stringfinder.py): a trie-walk scan over a token stream that
maintains a list of live states and yields a match record whenever a
traversal reaches a final trie node.

The matcher's collaborators (trie, tokenizer, normalizer) are external
to the matcher's source and are modelled from the specification at
their interface boundary; the scan loop itself is translated
line-by-line from StringFinder.scan.
-/

set_option maxHeartbeats 1000000

/-- Token produced by the external tokenizer: its text together with the
half-open character range it occupies in the original buffer.  The Python
name of the third field is `end`, a keyword in Lean, hence `stop`. -/
structure Token where
  text : String
  start : Nat
  stop : Nat
  deriving DecidableEq, Repr

/-- Modelled from the spec: the trie (trie.py is not among the sources) is a
DFA-like node graph whose edges are labeled by normalized token text and,
for the continuation of multi-word entries, by a token text prefixed with a
single separating space; a node may be final and carries optional metadata.
The matcher uses only consume / is_final / get_meta / transitions. -/
inductive Trie where
  | mk (final : Bool) (meta : Option String) (children : List (String × Trie))

/-- Outgoing labeled edges of a trie node. -/
def Trie.children : Trie → List (String × Trie)
  | .mk _ _ cs => cs

/-- Whether the node terminates a dictionary entry. -/
def Trie.is_final : Trie → Bool
  | .mk f _ _ => f

/-- Metadata attached to the dictionary entry ending at this node, if any. -/
def Trie.get_meta : Trie → Option String
  | .mk _ m _ => m

/-- First child reached by an edge carrying exactly the given label. -/
def lookupChild : List (String × Trie) → String → Option Trie
  | [], _ => none
  | (l, t) :: rest, s => if l = s then some t else lookupChild rest s

/-- Modelled from the spec: `consume(normalizedTokenOrSpacedToken) →
nextNodeOrAbsent`. -/
def Trie.consume (t : Trie) (s : String) : Option Trie :=
  lookupChild t.children s

/-- Modelled from the spec: `transitions() → set of outgoing edges`, used by
the matcher only to test emptiness. -/
def Trie.transitions (t : Trie) : List String := t.children.map Prod.fst

/-- A live state of the scan: a trie node, the buffer offset where this
partial match was born, and the normalized text consumed so far
(the `(state, state_start, consumed)` triple of stringfinder.py). -/
structure LiveState where
  node : Trie
  start : Nat
  consumed : String

/-- A match record yielded by scan.  The Python dictionary carries the keys
"surface", "span", "match" and "meta"; `match` is a Lean keyword, hence
`matched`. -/
structure MatchRecord where
  surface : String
  span : Nat × Nat
  matched : String
  meta : Option String
  deriving DecidableEq, Repr

/-- Python `buffer[a:b]` on the character list of the buffer. -/
def sliceChars (buffer : List Char) (a b : Nat) : List Char :=
  (buffer.take b).drop a

/-- Helper for `pySplit`: the accumulator holds the characters of the word
currently being read, in reverse. -/
def pySplitAux : List Char → List Char → List String
  | [], acc => if acc = [] then [] else [String.mk acc.reverse]
  | c :: cs, acc =>
    if c.isWhitespace then
      if acc = [] then pySplitAux cs [] else String.mk acc.reverse :: pySplitAux cs []
    else pySplitAux cs (c :: acc)

/-- Python `str.split()` with no arguments: split on runs of whitespace,
dropping empty pieces. -/
def pySplit (cs : List Char) : List String := pySplitAux cs []

/-- Python `" ".join(parts)`. -/
def spaceJoin : List String → String
  | [] => ""
  | [p] => p
  | p :: ps => p ++ " " ++ spaceJoin ps

/-- The space-normalized surface form `" ".join(buffer[a:b].split())`
emitted by scan. -/
def makeSurface (buffer : List Char) (a b : Nat) : String :=
  spaceJoin (pySplit (sliceChars buffer a b))

/-- The inner helper `__consume` of StringFinder.scan: try the direct
transition first and fall back to the space-prefixed transition, threading
the consumed text alongside. -/
def consumeHelper (state : Trie) (token consumed : String) : Option Trie × String :=
  match state.consume token with
  | some next => (some next, consumed ++ token)
  | none => (state.consume (" " ++ token), consumed ++ " " ++ token)

/-- The body of the inner loop of StringFinder.scan for one enumerated index
`idx` of the snapshot `live` of the live-state list: advance or prune the
state read from the snapshot, updating the rebuilt list and the records
yielded so far. -/
def processIndex (buffer : List Char) (ntok : String) (tstart tstop : Nat)
    (live : List LiveState) (idx : Nat)
    (acc : List LiveState × List MatchRecord) : List LiveState × List MatchRecord :=
  match live.get? idx with
  | none => acc
  | some st =>
    let sstart := if st.consumed = "" then tstart else st.start
    match consumeHelper st.node ntok st.consumed with
    | (none, _) =>
        if acc.1.length > idx ∧ ¬ idx = 0 then (acc.1.eraseIdx idx, acc.2) else acc
    | (some next, consumed) =>
        let out := if next.is_final then
            acc.2 ++ [{ surface := makeSurface buffer sstart tstop,
                        span := (sstart, tstop),
                        matched := consumed,
                        meta := next.get_meta }]
          else acc.2
        if next.transitions.length = 0 ∧ next.is_final = true then (acc.1, out)
        else (acc.1 ++ [{ node := next, start := sstart, consumed := consumed }], out)

/-- Run `processIndex` over a list of indices, left to right. -/
def processIndices (buffer : List Char) (ntok : String) (tstart tstop : Nat)
    (live : List LiveState) :
    List Nat → List LiveState × List MatchRecord → List LiveState × List MatchRecord
  | [], acc => acc
  | i :: is, acc =>
      processIndices buffer ntok tstart tstop live is
        (processIndex buffer ntok tstart tstop live i acc)

/-- The indices n-1, n-2, ..., 0: `reversed(list(enumerate(live_states)))`
visits the live-state list in reverse index order. -/
def descList (n : Nat) : List Nat := (List.range n).reverse

/-- One token step of StringFinder.scan: normalize the token, then process the
current live-state list in reverse index order, starting from a copy of the
list and an empty record batch. -/
def scanStep (normalize : String → String) (buffer : List Char)
    (live : List LiveState) (tok : Token) : List LiveState × List MatchRecord :=
  processIndices buffer (normalize tok.text) tok.start tok.stop live
    (descList live.length) (live, [])

/-- The records yielded by StringFinder.scan across a token stream, in yield
order, starting from a given live-state list. -/
def scanTokens (normalize : String → String) (buffer : List Char) :
    List LiveState → List Token → List MatchRecord
  | _, [] => []
  | live, t :: ts =>
      (scanStep normalize buffer live t).2 ++
        scanTokens normalize buffer (scanStep normalize buffer live t).1 ts

/-- The live-state list after scanning a token stream (the state at the start
of processing whatever token comes next). -/
def scanLive (normalize : String → String) (buffer : List Char) :
    List LiveState → List Token → List LiveState
  | live, [] => live
  | live, t :: ts => scanLive normalize buffer (scanStep normalize buffer live t).1 ts

/-- The initial live state `(self.__trie, 0, "")` of StringFinder.scan. -/
def initState (trie : Trie) : LiveState := { node := trie, start := 0, consumed := "" }

/-- StringFinder.scan: the list of match records yielded while scanning the
token stream of the buffer, in yield order.  Tokenization is a collaborator
(`tokens = self.__tokenizer.tokens(buffer)`), so the token stream is passed
in alongside the buffer. -/
def scan (trie : Trie) (normalize : String → String) (buffer : List Char)
    (tokens : List Token) : List MatchRecord :=
  scanTokens normalize buffer [initState trie] tokens

/-- Helper for `simpleTokens`: `cur` holds, when a token is in progress, its
start offset and its characters in reverse. -/
def simpleTokensAux : List Char → Nat → Option (Nat × List Char) → List Token
  | [], _, none => []
  | [], pos, some (s, acc) => [{ text := String.mk acc.reverse, start := s, stop := pos }]
  | c :: cs, pos, none =>
    if c.isWhitespace then simpleTokensAux cs (pos + 1) none
    else simpleTokensAux cs (pos + 1) (some (pos, [c]))
  | c :: cs, pos, some (s, acc) =>
    if c.isWhitespace then
      { text := String.mk acc.reverse, start := s, stop := pos } ::
        simpleTokensAux cs (pos + 1) none
    else simpleTokensAux cs (pos + 1) (some (s, c :: acc))

/-- Modelled from the spec: a simple whitespace tokenizer producing an ordered
sequence of `(text, start, end)` with half-open, non-overlapping character
offsets into the buffer (the tokenizer itself is not among the sources). -/
def simpleTokens (buffer : List Char) : List Token := simpleTokensAux buffer 0 none

/-! Concrete tries for the scenario claims, modelled from the spec's
trie-building conventions: the first token of an entry labels an edge out of
the root, each further token labels an edge prefixed by a single space, and
the node reached by the last token of an entry is final. -/

/-- Trie for the dictionary consisting of "a" and "a b" (spec scenario 2). -/
def trieAHolder : Trie := .mk true none []

/-- Node reached by "a" in the dictionary of "a" and "a b". -/
def trieANode : Trie := .mk true none [(" b", trieAHolder)]

/-- Root of the trie for the dictionary of "a" and "a b". -/
def trieScenario2 : Trie := .mk false none [("a", trieANode)]

/-- Deepest node of the trie for the dictionary of "a b" and "a b b". -/
def dupNodeBB : Trie := .mk true none []

/-- Node reached by "a b" in the dictionary of "a b" and "a b b". -/
def dupNodeB : Trie := .mk true none [(" b", dupNodeBB)]

/-- Node reached by "a" in the dictionary of "a b" and "a b b". -/
def dupNodeA : Trie := .mk false none [(" b", dupNodeB)]

/-- Root of the trie for the dictionary of "a b" and "a b b". -/
def trieDup : Trie := .mk false none [("a", dupNodeA)]

/-- Node reached by "a b" in the dictionary of "a b" and "a c". -/
def forkNodeB : Trie := .mk true none []

/-- Node reached by "a c" in the dictionary of "a b" and "a c". -/
def forkNodeC : Trie := .mk true none []

/-- Node reached by "a" in the dictionary of "a b" and "a c". -/
def forkNodeA : Trie := .mk false none [(" b", forkNodeB), (" c", forkNodeC)]

/-- Root of the trie for the dictionary of "a b" and "a c". -/
def trieFork : Trie := .mk false none [("a", forkNodeA)]

/-- Nodes of the trie for the dictionary of "a b c d", "b c d" and "c d". -/
def ordNodeA4 : Trie := .mk true none []

/-- Node reached by "a b c" in the order-scenario trie. -/
def ordNodeA3 : Trie := .mk false none [(" d", ordNodeA4)]

/-- Node reached by "a b" in the order-scenario trie. -/
def ordNodeA2 : Trie := .mk false none [(" c", ordNodeA3)]

/-- Node reached by "a" in the order-scenario trie. -/
def ordNodeA1 : Trie := .mk false none [(" b", ordNodeA2)]

/-- Node reached by "b c d" in the order-scenario trie. -/
def ordNodeB3 : Trie := .mk true none []

/-- Node reached by "b c" in the order-scenario trie. -/
def ordNodeB2 : Trie := .mk false none [(" d", ordNodeB3)]

/-- Node reached by "b" in the order-scenario trie. -/
def ordNodeB1 : Trie := .mk false none [(" c", ordNodeB2)]

/-- Node reached by "c d" in the order-scenario trie. -/
def ordNodeC2 : Trie := .mk true none []

/-- Node reached by "c" in the order-scenario trie. -/
def ordNodeC1 : Trie := .mk false none [(" d", ordNodeC2)]

/-- Root of the trie for the dictionary of "a b c d", "b c d" and "c d". -/
def trieOrder : Trie := .mk false none [("a", ordNodeA1), ("b", ordNodeB1), ("c", ordNodeC1)]

/-- C6: for the dictionary of "a" and "a b" and the buffer "a a b", scan
yields exactly three matches — "a" on the first token, "a" on the second
token, and "a b" on the second plus third tokens — in that order. -/
theorem scan_prefix_entries_scenario :
    scan trieScenario2 (fun s => s) "a a b".toList (simpleTokens "a a b".toList) =
      [{ surface := "a", span := (0, 1), matched := "a", meta := none },
       { surface := "a", span := (2, 3), matched := "a", meta := none },
       { surface := "a b", span := (2, 5), matched := "a b", meta := none }] := by
  decide

/-- C1 (failing input): for the dictionary of "a b" and "a b b" and the buffer
"a b b", scan emits two records at the span (0, 5) of the single occurrence of
"a b b" — the correct one and a second one produced by the stale pre-advance
copy of the state for "a", which the loop never removes after a successful
transition — so an occurrence is reported more than once at the same span. -/
theorem scan_duplicate_span_bug :
    scan trieDup (fun s => s) "a b b".toList (simpleTokens "a b b".toList) =
      [{ surface := "a b", span := (0, 3), matched := "a b", meta := none },
       { surface := "a b b", span := (0, 5), matched := "a b b", meta := none },
       { surface := "a b b", span := (0, 5), matched := "a b", meta := none }] ∧
    ((scan trieDup (fun s => s) "a b b".toList (simpleTokens "a b b".toList)).filter
        (fun r => r.span = (0, 5))).length = 2 := by
  constructor
  · decide
  · decide

/-- C2 (failing input): for the dictionary of "a b" and "a c" and the buffer
"a b c", scan emits a record with match text "a c" and span (0, 5), although
the token "b" occupying (2, 3) lies inside that span and its normalized form
was never consumed by the emitting state: the stale copy of the state for "a"
skipped the token "b" and later consumed "c". -/
theorem scan_unsound_span_bug :
    scan trieFork (fun s => s) "a b c".toList (simpleTokens "a b c".toList) =
      [{ surface := "a b", span := (0, 3), matched := "a b", meta := none },
       { surface := "a b c", span := (0, 5), matched := "a c", meta := none }] ∧
    (simpleTokens "a b c".toList).get? 1 = some { text := "b", start := 2, stop := 3 } := by
  constructor
  · decide
  · decide

/-- C3 (counterexample): for the dictionary of "a b c d", "b c d" and "c d"
and the buffer "a b c d", three states reach a final node while processing the
last token, and scan yields them with origins 4, 0, 2 in that order: the
emitted order is not oldest-origin-first, refuting the claimed tie-break. -/
theorem scan_tie_order_counterexample :
    scan trieOrder (fun s => s) "a b c d".toList (simpleTokens "a b c d".toList) =
      [{ surface := "c d", span := (4, 7), matched := "c d", meta := none },
       { surface := "a b c d", span := (0, 7), matched := "a b c d", meta := none },
       { surface := "b c d", span := (2, 7), matched := "b c d", meta := none }] ∧
    ¬ List.Pairwise (fun a b => a.span.2 = b.span.2 → a.span.1 ≤ b.span.1)
        (scan trieOrder (fun s => s) "a b c d".toList (simpleTokens "a b c d".toList)) := by
  constructor
  · decide
  · decide

/-- C8: on a token stream with no tokens, scan yields no matches (and the
modelled tokenizer produces no tokens from the empty buffer, so the empty
buffer yields the empty result sequence). -/
theorem scan_no_tokens (trie : Trie) (normalize : String → String) (buffer : List Char)
    (tokens : List Token) (h : tokens = []) :
    scan trie normalize buffer tokens = [] ∧ simpleTokens [] = [] := by
  subst h; exact ⟨rfl, rfl⟩

/-- Witness for C8 at the empty buffer: the tokenizer yields no tokens there
and scan yields the empty sequence. -/
theorem scan_no_tokens_witness :
    scan trieScenario2 (fun s => s) "".toList (simpleTokens "".toList) = [] ∧
      simpleTokens [] = [] :=
  scan_no_tokens trieScenario2 (fun s => s) "".toList (simpleTokens "".toList) rfl

/-! Helper lemmas about list surgery, used for the live-state list invariants. -/

/-- Erasing at an index leaves the part of the list before that index intact. -/
theorem take_eraseIdx_eq {α : Type} : ∀ (l : List α) (n : Nat), (l.eraseIdx n).take n = l.take n
  | [], _ => by simp [List.eraseIdx]
  | _ :: _, 0 => by simp
  | a :: t, n + 1 => by
      simp only [List.eraseIdx, List.take_cons]
      exact congrArg (a :: ·) (take_eraseIdx_eq t n)

/-- Erasing at a positive index leaves the head entry intact. -/
theorem get0_eraseIdx {α : Type} (l : List α) (n : Nat) (hn : ¬ n = 0) :
    (l.eraseIdx n).get? 0 = l.get? 0 := by
  cases l with
  | nil => simp [List.eraseIdx]
  | cons a t =>
    cases n with
    | zero => exact absurd rfl hn
    | succ m => simp [List.eraseIdx]

/-- Appending at the back leaves the head entry of a nonempty list intact. -/
theorem get0_append {α : Type} (l : List α) (x : α) (h : l ≠ []) :
    (l ++ [x]).get? 0 = l.get? 0 := by
  cases l with
  | nil => exact absurd rfl h
  | cons a t => simp

/-- The descending index list of length n + 1 starts with n. -/
theorem descList_succ (n : Nat) : descList (n + 1) = n :: descList n := by
  simp [descList, List.range_succ]

/-! Invariants of the inner loop: the head of the rebuilt list is never
touched, and the part of the rebuilt list below the index currently being
processed agrees with the snapshot. -/

/-- Erasing at a positive in-range index leaves the list nonempty. -/
theorem eraseIdx_ne_nil {α : Type} (l : List α) (n : Nat) (h1 : n < l.length)
    (h2 : ¬ n = 0) : l.eraseIdx n ≠ [] := by
  intro hnil
  have hl := congrArg List.length hnil
  rw [List.length_eraseIdx] at hl
  simp only [if_pos h1, List.length_nil] at hl
  omega

/-- One loop iteration keeps the rebuilt list nonempty and keeps its head. -/
theorem processIndex_keep0 (buffer : List Char) (ntok : String) (tstart tstop : Nat)
    (live : List LiveState) (idx : Nat) (acc : List LiveState × List MatchRecord)
    (h : acc.1 ≠ []) :
    (processIndex buffer ntok tstart tstop live idx acc).1 ≠ [] ∧
      (processIndex buffer ntok tstart tstop live idx acc).1.get? 0 = acc.1.get? 0 := by
  unfold processIndex
  split
  · exact ⟨h, rfl⟩
  · split <;> split <;> split <;> (try split) <;>
      first
        | exact ⟨h, rfl⟩
        | (rename_i hcond
           exact ⟨eraseIdx_ne_nil _ _ hcond.1 hcond.2, get0_eraseIdx _ _ hcond.2⟩)
        | exact ⟨by simp, get0_append _ _ h⟩

/-- Running the loop over any index list keeps the head of the rebuilt list. -/
theorem processIndices_keep0 (buffer : List Char) (ntok : String) (tstart tstop : Nat)
    (live : List LiveState) :
    ∀ (idxs : List Nat) (acc : List LiveState × List MatchRecord), acc.1 ≠ [] →
      (processIndices buffer ntok tstart tstop live idxs acc).1 ≠ [] ∧
        (processIndices buffer ntok tstart tstop live idxs acc).1.get? 0 = acc.1.get? 0
  | [], acc, h => ⟨h, rfl⟩
  | i :: is, acc, h => by
      obtain ⟨h1, h2⟩ := processIndex_keep0 buffer ntok tstart tstop live i acc h
      obtain ⟨h3, h4⟩ := processIndices_keep0 buffer ntok tstart tstop live is
        (processIndex buffer ntok tstart tstop live i acc) h1
      exact ⟨h3, h4.trans h2⟩

/-- A token step keeps the head of the live-state list. -/
theorem scanStep_keep0 (normalize : String → String) (buffer : List Char)
    (live : List LiveState) (tok : Token) (h : live ≠ []) :
    (scanStep normalize buffer live tok).1 ≠ [] ∧
      (scanStep normalize buffer live tok).1.get? 0 = live.get? 0 :=
  processIndices_keep0 buffer (normalize tok.text) tok.start tok.stop live
    (descList live.length) (live, []) h

/-- Scanning any token stream keeps the head of the live-state list. -/
theorem scanLive_keep0 (normalize : String → String) (buffer : List Char) :
    ∀ (toks : List Token) (live : List LiveState), live ≠ [] →
      (scanLive normalize buffer live toks) ≠ [] ∧
        (scanLive normalize buffer live toks).get? 0 = live.get? 0
  | [], live, h => ⟨h, rfl⟩
  | t :: ts, live, h => by
      obtain ⟨h1, h2⟩ := scanStep_keep0 normalize buffer live t h
      obtain ⟨h3, h4⟩ := scanLive_keep0 normalize buffer ts
        (scanStep normalize buffer live t).1 h1
      exact ⟨h3, h4.trans h2⟩

/-- With the rebuilt list agreeing with the snapshot up to and including the
processed index, one loop iteration preserves agreement strictly below it. -/
theorem processIndex_take (buffer : List Char) (ntok : String) (tstart tstop : Nat)
    (live : List LiveState) (idx : Nat) (acc : List LiveState × List MatchRecord)
    (hidx : idx < live.length)
    (h : acc.1.take (idx + 1) = live.take (idx + 1)) :
    (processIndex buffer ntok tstart tstop live idx acc).1.take idx = live.take idx := by
  have htake : acc.1.take idx = live.take idx := by
    have h' := congrArg (List.take idx) h
    rwa [List.take_take, List.take_take, Nat.min_eq_left (Nat.le_succ idx)] at h'
  have hget : acc.1.get? idx = live.get? idx := by
    rw [← List.get?_take (Nat.lt_succ_self idx), h, List.get?_take (Nat.lt_succ_self idx)]
  have hlt : idx < acc.1.length := by
    have hsome : acc.1.get? idx = some (live.get ⟨idx, hidx⟩) := by
      rw [hget]; exact List.get?_eq_get hidx
    obtain ⟨hl, -⟩ := List.get?_eq_some.mp hsome
    exact hl
  unfold processIndex
  split
  · exact htake
  · split <;> split <;> (try split) <;> (try split) <;>
      first
        | exact htake
        | (rw [take_eraseIdx_eq]; exact htake)
        | (rw [List.take_append_of_le_length (le_of_lt hlt)]; exact htake)

/-- Safety of one prospective pop: whenever the state at the processed index
of the snapshot has no transition for the incoming token and the index is not
the root index, the index is in range of the rebuilt list and the rebuilt list
still holds exactly the failed state there. -/
def SafeAt (ntok : String) (live : List LiveState) (idx : Nat)
    (acc : List LiveState × List MatchRecord) : Prop :=
  ∀ st, live.get? idx = some st → (consumeHelper st.node ntok st.consumed).1 = none →
    ¬ idx = 0 → idx < acc.1.length ∧ acc.1.get? idx = live.get? idx

/-- Safety of every pop along a run of the inner loop over an index list. -/
def AllSafe (buffer : List Char) (ntok : String) (tstart tstop : Nat)
    (live : List LiveState) : List Nat → List LiveState × List MatchRecord → Prop
  | [], _ => True
  | i :: is, acc => SafeAt ntok live i acc ∧
      AllSafe buffer ntok tstart tstop live is (processIndex buffer ntok tstart tstop live i acc)

/-- Safety of every pop in one token step of scan. -/
def stepSafe (normalize : String → String) (buffer : List Char)
    (live : List LiveState) (tok : Token) : Prop :=
  AllSafe buffer (normalize tok.text) tok.start tok.stop live (descList live.length) (live, [])

/-- Safety of every pop across a whole scan. -/
def scanSafe (normalize : String → String) (buffer : List Char) :
    List LiveState → List Token → Prop
  | _, [] => True
  | live, t :: ts => stepSafe normalize buffer live t ∧
      scanSafe normalize buffer (scanStep normalize buffer live t).1 ts

/-- Every pop during a descending run of the inner loop is safe, provided the
rebuilt list agrees with the snapshot on the indices still to be visited. -/
theorem allSafe_of_take (buffer : List Char) (ntok : String) (tstart tstop : Nat)
    (live : List LiveState) :
    ∀ (m : Nat) (acc : List LiveState × List MatchRecord), m ≤ live.length →
      acc.1.take m = live.take m → AllSafe buffer ntok tstart tstop live (descList m) acc
  | 0, acc, _, _ => by
      rw [(rfl : descList 0 = [])]
      trivial
  | m + 1, acc, hm, h => by
      rw [descList_succ]
      have hget : acc.1.get? m = live.get? m := by
        rw [← List.get?_take (Nat.lt_succ_self m), h, List.get?_take (Nat.lt_succ_self m)]
      refine ⟨?_, ?_⟩
      · intro st hst _ _
        have hsome : acc.1.get? m = some st := by rw [hget]; exact hst
        obtain ⟨hl, -⟩ := List.get?_eq_some.mp hsome
        exact ⟨hl, hget⟩
      · exact allSafe_of_take buffer ntok tstart tstop live m _ (Nat.le_of_succ_le hm)
          (processIndex_take buffer ntok tstart tstop live m acc (Nat.lt_of_succ_le hm) h)

/-- Every pop across a whole scan is safe, from any starting live-state list. -/
theorem scanSafe_all (normalize : String → String) (buffer : List Char) :
    ∀ (toks : List Token) (live : List LiveState), scanSafe normalize buffer live toks
  | [], _ => trivial
  | t :: ts, live =>
      ⟨allSafe_of_take buffer (normalize t.text) t.start t.stop live live.length
          (live, []) le_rfl rfl,
        scanSafe_all normalize buffer ts (scanStep normalize buffer live t).1⟩

/-- C10: scan is total and its removal of a failed non-root state by index is
always safe: at the moment of every pop the index is strictly within the
rebuilt list and the entry removed there is exactly the failed state read from
the snapshot (states are visited in strictly decreasing index order, removals
occur only at larger indices and appends only grow the list, so the prefix up
to the current index is untouched). -/
theorem scan_pop_safety (trie : Trie) (normalize : String → String) (buffer : List Char)
    (tokens : List Token) : scanSafe normalize buffer [initState trie] tokens :=
  scanSafe_all normalize buffer tokens [initState trie]

/-- C4: at the start of processing every token the live-state list still holds,
at index 0, the state positioned at the trie root with empty consumed text; and
during a token step a non-root state with no direct and no space-prefixed
transition for the incoming token is removed from the rebuilt list (the root
entry itself is never discarded, as the removal branch requires a non-zero
index). -/
theorem scan_root_state_invariant :
    (∀ (trie : Trie) (normalize : String → String) (buffer : List Char)
        (tokens : List Token),
      (scanLive normalize buffer [initState trie] tokens).get? 0 = some (initState trie)) ∧
    (∀ (buffer : List Char) (ntok : String) (tstart tstop : Nat) (live : List LiveState)
        (idx : Nat) (st : LiveState) (acc : List LiveState × List MatchRecord) (c : String),
      live.get? idx = some st → consumeHelper st.node ntok st.consumed = (none, c) →
      ¬ idx = 0 → idx < acc.1.length →
      processIndex buffer ntok tstart tstop live idx acc = (acc.1.eraseIdx idx, acc.2)) := by
  constructor
  · intro trie normalize buffer tokens
    have h := scanLive_keep0 normalize buffer tokens [initState trie] (by simp)
    rw [h.2]
    rfl
  · intro buffer ntok tstart tstop live idx st acc c hst hc hne hlt
    unfold processIndex
    simp only [hst, hc]
    rw [if_pos (⟨hlt, hne⟩ : acc.1.length > idx ∧ ¬ idx = 0)]

/-- Witness for C4: on the scenario trie for a and a b, after scanning the
tokens of "a a b" the head of the live-state list is still the root state, and
a live state at the node for "a" that cannot consume the token "x" is removed
from the rebuilt list by the loop iteration that processes it. -/
theorem scan_root_state_invariant_witness :
    (scanLive (fun s => s) "a a b".toList [initState trieScenario2]
        (simpleTokens "a a b".toList)).get? 0 = some (initState trieScenario2) ∧
    processIndex "x".toList "x" 0 1
        [initState trieScenario2, { node := trieANode, start := 0, consumed := "a" }] 1
        ([initState trieScenario2, { node := trieANode, start := 0, consumed := "a" }], []) =
      (([initState trieScenario2,
          { node := trieANode, start := 0, consumed := "a" }] : List LiveState).eraseIdx 1,
        []) :=
  ⟨scan_root_state_invariant.1 trieScenario2 (fun s => s) "a a b".toList
      (simpleTokens "a a b".toList),
    scan_root_state_invariant.2 "x".toList "x" 0 1 _ 1
      { node := trieANode, start := 0, consumed := "a" } _ "a x" rfl rfl
      (by decide) (by decide)⟩

/-! Generic preservation: a property of live states that survives successful
transitions, together with a property of every record emitted, propagates
through the inner loop and through whole token steps. -/

/-- One loop iteration preserves a state property P of all list entries and a
record property Q of all emitted records, provided P is closed under a
successful transition and every record built from a P-state satisfies Q. -/
theorem processIndex_preserve (buffer : List Char) (ntok : String) (tstart tstop : Nat)
    (live : List LiveState) (P : LiveState → Prop) (Q : MatchRecord → Prop)
    (hstep : ∀ (st : LiveState) (next : Trie) (consumed : String) (sstart : Nat), P st →
      consumeHelper st.node ntok st.consumed = (some next, consumed) →
      P { node := next, start := sstart, consumed := consumed } ∧
        (next.is_final = true →
          Q { surface := makeSurface buffer sstart tstop, span := (sstart, tstop),
              matched := consumed, meta := next.get_meta }))
    (hlive : ∀ s ∈ live, P s) (idx : Nat) (acc : List LiveState × List MatchRecord)
    (h1 : ∀ s ∈ acc.1, P s) (h2 : ∀ r ∈ acc.2, Q r) :
    (∀ s ∈ (processIndex buffer ntok tstart tstop live idx acc).1, P s) ∧
      (∀ r ∈ (processIndex buffer ntok tstart tstop live idx acc).2, Q r) := by
  unfold processIndex
  split
  · exact ⟨h1, h2⟩
  · rename_i st hget
    have hPst : P st := hlive st (List.get?_mem hget)
    rcases hcc : consumeHelper st.node ntok st.consumed with ⟨o, c⟩
    cases o with
    | none =>
        simp only [hcc]
        split
        · exact ⟨fun s hs => h1 s (List.mem_of_mem_eraseIdx hs), h2⟩
        · exact ⟨h1, h2⟩
    | some next =>
        obtain ⟨hP', hQ'⟩ :=
          hstep st next c (if st.consumed = "" then tstart else st.start) hPst hcc
        simp only [hcc]
        by_cases hfin : next.is_final = true
        · rw [if_pos hfin]
          split
          · refine ⟨h1, fun r hr => ?_⟩
            rcases List.mem_append.mp hr with hr | hr
            · exact h2 r hr
            · rw [List.mem_singleton.mp hr]
              exact hQ' hfin
          · refine ⟨fun s hs => ?_, fun r hr => ?_⟩
            · rcases List.mem_append.mp hs with hs | hs
              · exact h1 s hs
              · rw [List.mem_singleton.mp hs]
                exact hP'
            · rcases List.mem_append.mp hr with hr | hr
              · exact h2 r hr
              · rw [List.mem_singleton.mp hr]
                exact hQ' hfin
        · rw [if_neg hfin]
          split
          · exact ⟨h1, h2⟩
          · refine ⟨fun s hs => ?_, h2⟩
            rcases List.mem_append.mp hs with hs | hs
            · exact h1 s hs
            · rw [List.mem_singleton.mp hs]
              exact hP'

/-- A run of the inner loop preserves a state property P and a record
property Q, under the same closure assumptions. -/
theorem processIndices_preserve (buffer : List Char) (ntok : String) (tstart tstop : Nat)
    (live : List LiveState) (P : LiveState → Prop) (Q : MatchRecord → Prop)
    (hstep : ∀ (st : LiveState) (next : Trie) (consumed : String) (sstart : Nat), P st →
      consumeHelper st.node ntok st.consumed = (some next, consumed) →
      P { node := next, start := sstart, consumed := consumed } ∧
        (next.is_final = true →
          Q { surface := makeSurface buffer sstart tstop, span := (sstart, tstop),
              matched := consumed, meta := next.get_meta }))
    (hlive : ∀ s ∈ live, P s) :
    ∀ (idxs : List Nat) (acc : List LiveState × List MatchRecord),
      (∀ s ∈ acc.1, P s) → (∀ r ∈ acc.2, Q r) →
      (∀ s ∈ (processIndices buffer ntok tstart tstop live idxs acc).1, P s) ∧
        (∀ r ∈ (processIndices buffer ntok tstart tstop live idxs acc).2, Q r)
  | [], _, h1, h2 => ⟨h1, h2⟩
  | i :: is, acc, h1, h2 => by
      obtain ⟨h1', h2'⟩ := processIndex_preserve buffer ntok tstart tstop live P Q hstep
        hlive i acc h1 h2
      exact processIndices_preserve buffer ntok tstart tstop live P Q hstep hlive is
        (processIndex buffer ntok tstart tstop live i acc) h1' h2'

/-- One token step preserves a state property P of the live-state list and
gives a record property Q of every record it emits. -/
theorem scanStep_preserve (normalize : String → String) (buffer : List Char)
    (live : List LiveState) (tok : Token) (P : LiveState → Prop) (Q : MatchRecord → Prop)
    (hstep : ∀ (st : LiveState) (next : Trie) (consumed : String) (sstart : Nat), P st →
      consumeHelper st.node (normalize tok.text) st.consumed = (some next, consumed) →
      P { node := next, start := sstart, consumed := consumed } ∧
        (next.is_final = true →
          Q { surface := makeSurface buffer sstart tok.stop, span := (sstart, tok.stop),
              matched := consumed, meta := next.get_meta }))
    (hlive : ∀ s ∈ live, P s) :
    (∀ s ∈ (scanStep normalize buffer live tok).1, P s) ∧
      (∀ r ∈ (scanStep normalize buffer live tok).2, Q r) :=
  processIndices_preserve buffer (normalize tok.text) tok.start tok.stop live P Q hstep
    hlive (descList live.length) (live, []) hlive (by simp)

/-- C7 (round trip of surface and span): every record yielded by scan has as
surface exactly the whitespace-collapse of the slice of the buffer at its
span, with no other normalization applied. -/
theorem scan_surface_span_roundtrip (trie : Trie) (normalize : String → String)
    (buffer : List Char) (tokens : List Token) :
    ∀ r ∈ scan trie normalize buffer tokens,
      r.surface = makeSurface buffer r.span.1 r.span.2 := by
  suffices h : ∀ (toks : List Token) (live : List LiveState),
      ∀ r ∈ scanTokens normalize buffer live toks,
        r.surface = makeSurface buffer r.span.1 r.span.2 by
    exact h tokens [initState trie]
  intro toks
  induction toks with
  | nil => intro live r hr; simp [scanTokens] at hr
  | cons t ts ih =>
      intro live r hr
      rcases List.mem_append.mp hr with hr | hr
      · have := (scanStep_preserve normalize buffer live t (fun _ => True)
          (fun r => r.surface = makeSurface buffer r.span.1 r.span.2)
          (fun st next consumed sstart _ _ => ⟨trivial, fun _ => rfl⟩)
          (fun _ _ => trivial)).2
        exact this r hr
      · exact ih (scanStep normalize buffer live t).1 r hr

/-- Witness for C7: the first record of the scenario scan satisfies the
surface and span round trip. -/
theorem scan_surface_span_roundtrip_witness :
    { surface := "a", span := (0, 1), matched := "a", meta := none } ∈
        scan trieScenario2 (fun s => s) "a a b".toList (simpleTokens "a a b".toList) ∧
      ({ surface := "a", span := (0, 1), matched := "a", meta := none } : MatchRecord).surface =
        makeSurface "a a b".toList 0 1 :=
  ⟨by decide,
    scan_surface_span_roundtrip trieScenario2 (fun s => s) "a a b".toList
      (simpleTokens "a a b".toList)
      { surface := "a", span := (0, 1), matched := "a", meta := none } (by decide)⟩

/-- Every record emitted while processing one token carries that token's end
offset as the second component of its span. -/
theorem scanStep_stop (normalize : String → String) (buffer : List Char)
    (live : List LiveState) (tok : Token) :
    ∀ r ∈ (scanStep normalize buffer live tok).2, r.span.2 = tok.stop :=
  (scanStep_preserve normalize buffer live tok (fun _ => True)
    (fun r => r.span.2 = tok.stop)
    (fun _ _ _ _ _ _ => ⟨trivial, fun _ => rfl⟩) (fun _ _ => trivial)).2

/-- Every record yielded over a token stream ends at the end offset of one of
the stream's tokens. -/
theorem scanTokens_stop_mem (normalize : String → String) (buffer : List Char) :
    ∀ (toks : List Token) (live : List LiveState) (r : MatchRecord),
      r ∈ scanTokens normalize buffer live toks → ∃ t ∈ toks, r.span.2 = t.stop
  | [], _, r, hr => by simp [scanTokens] at hr
  | t :: ts, live, r, hr => by
      rcases List.mem_append.mp hr with hr | hr
      · exact ⟨t, List.mem_cons_self t ts, scanStep_stop normalize buffer live t r hr⟩
      · obtain ⟨t', ht', he⟩ := scanTokens_stop_mem normalize buffer ts
          (scanStep normalize buffer live t).1 r hr
        exact ⟨t', List.mem_cons_of_mem t ht', he⟩

/-- C3 (amended): scan yields match records in token-completion order — when
the tokenizer's token end offsets are non-decreasing, the span end offsets of
the yielded records are non-decreasing, every record emitted during a token
step ending at that step's token — while the order of matches completing on
the same token is the reverse-construction-order processing of the live-state
list, which is not in general oldest-origin-first. -/
theorem scan_token_completion_order (trie : Trie) (normalize : String → String)
    (buffer : List Char) (tokens : List Token)
    (hsorted : List.Pairwise (fun a b : Token => a.stop ≤ b.stop) tokens) :
    List.Pairwise (fun r1 r2 : MatchRecord => r1.span.2 ≤ r2.span.2)
      (scan trie normalize buffer tokens) := by
  suffices h : ∀ (toks : List Token) (live : List LiveState),
      List.Pairwise (fun a b : Token => a.stop ≤ b.stop) toks →
      List.Pairwise (fun r1 r2 : MatchRecord => r1.span.2 ≤ r2.span.2)
        (scanTokens normalize buffer live toks) from h tokens [initState trie] hsorted
  intro toks
  induction toks with
  | nil => intro live _; exact List.Pairwise.nil
  | cons t ts ih =>
      intro live hs
      rw [List.pairwise_cons] at hs
      show List.Pairwise _ ((scanStep normalize buffer live t).2 ++
        scanTokens normalize buffer (scanStep normalize buffer live t).1 ts)
      rw [List.pairwise_append]
      refine ⟨List.pairwise_of_forall_mem_list (fun a ha b hb => ?_),
        ih (scanStep normalize buffer live t).1 hs.2, fun a ha b hb => ?_⟩
      · rw [scanStep_stop normalize buffer live t a ha,
          scanStep_stop normalize buffer live t b hb]
      · obtain ⟨t', ht', he⟩ := scanTokens_stop_mem normalize buffer ts
          (scanStep normalize buffer live t).1 b hb
        rw [scanStep_stop normalize buffer live t a ha, he]
        exact hs.1 t' ht'

/-- Witness for C3 (amended): the tokens of "a b c d" have non-decreasing end
offsets, and the records of the order-scenario scan come out with
non-decreasing span ends. -/
theorem scan_token_completion_order_witness :
    List.Pairwise (fun a b : Token => a.stop ≤ b.stop)
        (simpleTokens "a b c d".toList) ∧
      List.Pairwise (fun r1 r2 : MatchRecord => r1.span.2 ≤ r2.span.2)
        (scan trieOrder (fun s => s) "a b c d".toList (simpleTokens "a b c d".toList)) :=
  ⟨by decide,
    scan_token_completion_order trieOrder (fun s => s) "a b c d".toList
      (simpleTokens "a b c d".toList) (by decide)⟩

/-! Well-formedness of a trie built with the spec's conventions (first token
of an entry on a bare edge out of the root, every further token on a
space-prefixed edge), and the consumed-text invariant it induces. -/

/-- Whether a string begins with the single separating space character. -/
def startsWithSpace (s : String) : Bool :=
  match s.data with
  | [] => false
  | c :: _ => c = ' '

/-- A node all of whose outgoing edges, recursively, carry space-prefixed
labels — the shape of every non-root node of a trie built with the spec's
conventions. -/
inductive DeepOkay : Trie → Prop where
  | mk (f : Bool) (m : Option String) (cs : List (String × Trie))
      (hlab : ∀ p ∈ cs, startsWithSpace p.1 = true)
      (hrec : ∀ p ∈ cs, DeepOkay p.2) : DeepOkay (.mk f m cs)

/-- A root whose outgoing edges carry bare (not space-prefixed) labels and
whose descendants are all space-prefixed — the shape of a trie built with the
spec's conventions. -/
def trieOkay (t : Trie) : Prop :=
  (∀ p ∈ t.children, startsWithSpace p.1 = false) ∧ ∀ p ∈ t.children, DeepOkay p.2

/-- Destructor for `DeepOkay`. -/
theorem DeepOkay.dest {t : Trie} (h : DeepOkay t) :
    (∀ p ∈ t.children, startsWithSpace p.1 = true) ∧ ∀ p ∈ t.children, DeepOkay p.2 := by
  cases h with
  | mk f m cs hlab hrec => exact ⟨hlab, hrec⟩

/-- Prefixing the separating space makes `startsWithSpace` true. -/
theorem startsWithSpace_space_append (s : String) :
    startsWithSpace (" " ++ s) = true := by
  have h : (" " ++ s).data = ' ' :: s.data := by
    rw [String.data_append]
    rfl
  simp [startsWithSpace, h]

/-- A successful child lookup returns an actual labeled child. -/
theorem lookupChild_mem : ∀ (cs : List (String × Trie)) (s : String) (t : Trie),
    lookupChild cs s = some t → (s, t) ∈ cs
  | [], _, _, h => by simp [lookupChild] at h
  | (l, t') :: rest, s, t, h => by
      unfold lookupChild at h
      split at h
      · rename_i hl
        rw [Option.some.injEq] at h
        rw [← h, ← hl]
        exact List.mem_cons_self _ _
      · exact List.mem_cons_of_mem _ (lookupChild_mem rest s t h)

/-- Lookup fails when every edge label disagrees with the key on whether it
starts with the separating space. -/
theorem lookupChild_eq_none : ∀ (cs : List (String × Trie)) (s : String),
    (∀ p ∈ cs, ¬ startsWithSpace p.1 = startsWithSpace s) → lookupChild cs s = none
  | [], _, _ => rfl
  | (l, t) :: rest, s, h => by
      unfold lookupChild
      rw [if_neg fun he => h (l, t) (List.mem_cons_self _ _) (by rw [he])]
      exact lookupChild_eq_none rest s fun q hq => h q (List.mem_cons_of_mem _ hq)

/-- Joining one more part appends a single separating space and the part. -/
theorem spaceJoin_append : ∀ (ts : List String) (x : String), ts ≠ [] →
    spaceJoin (ts ++ [x]) = spaceJoin ts ++ " " ++ x
  | [], _, h => absurd rfl h
  | [p], x, _ => rfl
  | p :: q :: rest, x, _ => by
      show p ++ " " ++ spaceJoin ((q :: rest) ++ [x]) = p ++ " " ++ spaceJoin (q :: rest) ++ " " ++ x
      rw [spaceJoin_append (q :: rest) x (by simp), ← String.append_assoc, ← String.append_assoc]

/-- States reachable in a scan over a well-formed trie: either the untouched
root state, or a state at a space-prefixed descendant node whose consumed text
is the space join of a nonempty list of allowed normalized token values. -/
def GoodState (trie : Trie) (A : String → Prop) (s : LiveState) : Prop :=
  (s.node = trie ∧ s.consumed = "") ∨
    (DeepOkay s.node ∧ ∃ ts : List String, ts ≠ [] ∧ (∀ x ∈ ts, A x) ∧
      s.consumed = spaceJoin ts)

/-- The consumed text after a successful transition from a reachable state is
the space join of one more allowed value, and the node reached is again a
space-prefixed descendant. -/
theorem consumeHelper_good (trie : Trie) (A : String → Prop) (htrie : trieOkay trie)
    (ntok : String) (hA : A ntok) (hsp : startsWithSpace ntok = false)
    (st : LiveState) (next : Trie) (consumed : String)
    (hP : GoodState trie A st)
    (hc : consumeHelper st.node ntok st.consumed = (some next, consumed)) :
    DeepOkay next ∧ ∃ ts : List String, ts ≠ [] ∧ (∀ x ∈ ts, A x) ∧
      consumed = spaceJoin ts := by
  rcases hP with ⟨hnode, hcons⟩ | ⟨hdeep, ts, hts, hAts, hcons⟩
  · rw [hnode, hcons] at hc
    unfold consumeHelper at hc
    cases hl : Trie.consume trie ntok with
    | some n =>
        rw [hl] at hc
        injection hc with h1 h2
        injection h1 with h1
        have hmem := lookupChild_mem trie.children ntok n hl
        refine ⟨h1 ▸ htrie.2 (ntok, n) hmem, [ntok], by simp, by simp [hA], ?_⟩
        rw [← h2]
        rfl
    | none =>
        rw [hl] at hc
        have hnone : Trie.consume trie (" " ++ ntok) = none :=
          lookupChild_eq_none trie.children (" " ++ ntok) fun p hp => by
            rw [htrie.1 p hp, startsWithSpace_space_append]
            simp
        rw [hnone] at hc
        exact absurd (congrArg Prod.fst hc) (by simp)
  · unfold consumeHelper at hc
    have hdirect : Trie.consume st.node ntok = none :=
      lookupChild_eq_none st.node.children ntok fun p hp => by
        rw [hdeep.dest.1 p hp, hsp]
        simp
    rw [hdirect] at hc
    cases hl : Trie.consume st.node (" " ++ ntok) with
    | none =>
        rw [hl] at hc
        exact absurd (congrArg Prod.fst hc) (by simp)
    | some n =>
        rw [hl] at hc
        injection hc with h1 h2
        injection h1 with h1
        have hmem := lookupChild_mem st.node.children (" " ++ ntok) n hl
        refine ⟨h1 ▸ hdeep.dest.2 (" " ++ ntok, n) hmem, ts ++ [ntok], by simp, ?_, ?_⟩
        · intro x hx
          rcases List.mem_append.mp hx with hx | hx
          · exact hAts x hx
          · rw [List.mem_singleton.mp hx]
            exact hA
        · rw [← h2, hcons, spaceJoin_append ts ntok hts, String.append_assoc]

/-- Record property induced by the consumed-text invariant. -/
def GoodRecord (A : String → Prop) (r : MatchRecord) : Prop :=
  ∃ ts : List String, ts ≠ [] ∧ (∀ x ∈ ts, A x) ∧ r.matched = spaceJoin ts

/-- Over a well-formed trie, every record yielded across a token stream whose
normalized values are allowed, nonempty and not space-prefixed has as match
text the space join of a nonempty list of allowed values. -/
theorem scanTokens_matched_good (trie : Trie) (A : String → Prop)
    (normalize : String → String) (buffer : List Char) (htrie : trieOkay trie) :
    ∀ (toks : List Token) (live : List LiveState),
      (∀ tok ∈ toks, A (normalize tok.text) ∧
        startsWithSpace (normalize tok.text) = false) →
      (∀ s ∈ live, GoodState trie A s) →
      ∀ r ∈ scanTokens normalize buffer live toks, GoodRecord A r
  | [], _, _, _, r, hr => by simp [scanTokens] at hr
  | t :: ts, live, htok, hlive, r, hr => by
      have hstep : ∀ (st : LiveState) (next : Trie) (consumed : String) (sstart : Nat),
          GoodState trie A st →
          consumeHelper st.node (normalize t.text) st.consumed = (some next, consumed) →
          GoodState trie A { node := next, start := sstart, consumed := consumed } ∧
            (next.is_final = true →
              GoodRecord A { surface := makeSurface buffer sstart t.stop,
                             span := (sstart, t.stop), matched := consumed,
                             meta := next.get_meta }) := by
        intro st next consumed sstart hP hc
        obtain ⟨hdeep, ts', h1, h2, h3⟩ := consumeHelper_good trie A htrie
          (normalize t.text) (htok t (List.mem_cons_self t ts)).1
          (htok t (List.mem_cons_self t ts)).2 st next consumed hP hc
        exact ⟨Or.inr ⟨hdeep, ts', h1, h2, h3⟩, fun _ => ⟨ts', h1, h2, h3⟩⟩
      have hpres := scanStep_preserve normalize buffer live t (GoodState trie A)
        (GoodRecord A) hstep hlive
      rcases List.mem_append.mp hr with hr | hr
      · exact hpres.2 r hr
      · exact scanTokens_matched_good trie A normalize buffer htrie ts
          (scanStep normalize buffer live t).1
          (fun tok htk => htok tok (List.mem_cons_of_mem t htk)) hpres.1 r hr

/-- C5: over a trie built with the spec's conventions and a token stream whose
normalized forms are nonempty and not space-prefixed, the match field of every
record yielded by scan is the space join of a nonempty list of normalized
token values of the stream: each appended normalized token is preceded by a
single space exactly when it is not the first token consumed by the emitting
state. -/
theorem scan_matched_space_joined (trie : Trie) (normalize : String → String)
    (buffer : List Char) (tokens : List Token) (htrie : trieOkay trie)
    (htok : ∀ tok ∈ tokens, startsWithSpace (normalize tok.text) = false) :
    ∀ r ∈ scan trie normalize buffer tokens,
      ∃ ts : List String, ts ≠ [] ∧
        (∀ x ∈ ts, ∃ tok ∈ tokens, x = normalize tok.text) ∧
        r.matched = spaceJoin ts := by
  intro r hr
  exact scanTokens_matched_good trie
    (fun x => ∃ tok ∈ tokens, x = normalize tok.text) normalize buffer htrie tokens
    [initState trie]
    (fun tok htk => ⟨⟨tok, htk, rfl⟩, htok tok htk⟩)
    (fun s hs => by
      rw [List.mem_singleton.mp hs]
      exact Or.inl ⟨rfl, rfl⟩) r hr

/-- The leaf node of the scenario trie is a space-prefixed descendant. -/
theorem deepOkay_trieAHolder : DeepOkay trieAHolder :=
  DeepOkay.mk true none [] (by simp) (by simp)

/-- The node for "a" of the scenario trie is a space-prefixed descendant. -/
theorem deepOkay_trieANode : DeepOkay trieANode :=
  DeepOkay.mk true none [(" b", trieAHolder)] (by decide)
    (by
      intro p hp
      rw [List.mem_singleton.mp hp]
      exact deepOkay_trieAHolder)

/-- The scenario trie for a and a b is built with the spec's conventions. -/
theorem trieOkay_trieScenario2 : trieOkay trieScenario2 :=
  ⟨by decide, by
    intro p hp
    rw [List.mem_singleton.mp hp]
    exact deepOkay_trieANode⟩

/-- Witness for C5: the third record of the scenario scan has as match text a
space join of normalized token values of the stream. -/
theorem scan_matched_space_joined_witness :
    ∃ ts : List String, ts ≠ [] ∧
      (∀ x ∈ ts, ∃ tok ∈ simpleTokens "a a b".toList, x = (fun s => s) tok.text) ∧
      ({ surface := "a b", span := (2, 5), matched := "a b", meta := none } :
        MatchRecord).matched = spaceJoin ts :=
  scan_matched_space_joined trieScenario2 (fun s => s) "a a b".toList
    (simpleTokens "a a b".toList) trieOkay_trieScenario2 (by decide)
    { surface := "a b", span := (2, 5), matched := "a b", meta := none } (by decide)
